import Mathlib

/-!
Verification of the nonstring sequence-normalization library.

We embed the Python values the library manipulates as an inductive type
`PyVal`, translate each source function (`wrap`, `unwrap`, `unique`,
`isseparable`, `Wrapper.__eq__`) into a Lean definition, and model the
`merge` pipeline from the specification (its implementation is not part of
the source tree; only the tests call it).
-/

/-- A model of the Python values handled by the library: `None`, non-iterable
scalars (ints, floats, slices, ... -- collapsed into `atom`), strings, bytes,
lists and tuples. -/
inductive PyVal : Type where
  | none : PyVal
  | atom : Int → PyVal
  | str : String → PyVal
  | bytes : List Nat → PyVal
  | list : List PyVal → PyVal
  | tuple : List PyVal → PyVal

mutual

/-- Structural equality on `PyVal` (Python `==` for these values). -/
def PyVal.beq : PyVal → PyVal → Bool
  | PyVal.none, PyVal.none => true
  | PyVal.atom a, PyVal.atom b => a == b
  | PyVal.str a, PyVal.str b => a == b
  | PyVal.bytes a, PyVal.bytes b => a == b
  | PyVal.list a, PyVal.list b => PyVal.beqList a b
  | PyVal.tuple a, PyVal.tuple b => PyVal.beqList a b
  | _, _ => false

/-- Elementwise equality of two lists of `PyVal`. -/
def PyVal.beqList : List PyVal → List PyVal → Bool
  | [], [] => true
  | a :: as, b :: bs => PyVal.beq a b && PyVal.beqList as bs
  | _, _ => false

end

/-- Induction over `PyVal` that hands the inductive hypothesis to every
member of a list or tuple. -/
def PyVal.inductionOn {motive : PyVal → Prop}
    (hnone : motive PyVal.none)
    (hatom : ∀ n, motive (PyVal.atom n))
    (hstr : ∀ s, motive (PyVal.str s))
    (hbytes : ∀ bs, motive (PyVal.bytes bs))
    (hlist : ∀ xs, (∀ x ∈ xs, motive x) → motive (PyVal.list xs))
    (htuple : ∀ xs, (∀ x ∈ xs, motive x) → motive (PyVal.tuple xs)) :
    ∀ v, motive v
  | PyVal.none => hnone
  | PyVal.atom n => hatom n
  | PyVal.str s => hstr s
  | PyVal.bytes bs => hbytes bs
  | PyVal.list xs => hlist xs (fun x hmem =>
      have := List.sizeOf_lt_of_mem hmem
      PyVal.inductionOn hnone hatom hstr hbytes hlist htuple x)
  | PyVal.tuple xs => htuple xs (fun x hmem =>
      have := List.sizeOf_lt_of_mem hmem
      PyVal.inductionOn hnone hatom hstr hbytes hlist htuple x)
termination_by v => sizeOf v
decreasing_by
  all_goals
    simp only [PyVal.list.sizeOf_spec, PyVal.tuple.sizeOf_spec]
    omega

theorem PyVal.beq_eq_true_iff : ∀ a b : PyVal, (PyVal.beq a b = true) ↔ a = b := by
  intro a
  induction a using PyVal.inductionOn with
  | hnone => intro b; cases b <;> simp [PyVal.beq]
  | hatom n => intro b; cases b <;> simp [PyVal.beq]
  | hstr s => intro b; cases b <;> simp [PyVal.beq]
  | hbytes bs => intro b; cases b <;> simp [PyVal.beq]
  | hlist xs ih =>
    intro b
    cases b <;> simp only [PyVal.beq] <;> try simp
    case list ys =>
      constructor
      · intro h
        suffices hsuff : xs = ys by simp [hsuff]
        induction xs generalizing ys with
        | nil => cases ys with
          | nil => rfl
          | cons y ys => simp [PyVal.beqList] at h
        | cons x xs ihx =>
          cases ys with
          | nil => simp [PyVal.beqList] at h
          | cons y ys =>
            simp only [PyVal.beqList, Bool.and_eq_true] at h
            have h1 := (ih x (by simp)) y
            have h2 := ihx (fun z hz => ih z (by simp [hz])) ys h.2
            simp [h1.mp h.1, h2]
      · rintro rfl
        induction xs with
        | nil => simp [PyVal.beqList]
        | cons x xs ihx =>
          simp only [PyVal.beqList, Bool.and_eq_true]
          exact ⟨((ih x (by simp)) x).mpr rfl,
            ihx (fun z hz => ih z (by simp [hz]))⟩
  | htuple xs ih =>
    intro b
    cases b <;> simp only [PyVal.beq] <;> try simp
    case tuple ys =>
      constructor
      · intro h
        suffices hsuff : xs = ys by simp [hsuff]
        induction xs generalizing ys with
        | nil => cases ys with
          | nil => rfl
          | cons y ys => simp [PyVal.beqList] at h
        | cons x xs ihx =>
          cases ys with
          | nil => simp [PyVal.beqList] at h
          | cons y ys =>
            simp only [PyVal.beqList, Bool.and_eq_true] at h
            have h1 := (ih x (by simp)) y
            have h2 := ihx (fun z hz => ih z (by simp [hz])) ys h.2
            simp [h1.mp h.1, h2]
      · rintro rfl
        induction xs with
        | nil => simp [PyVal.beqList]
        | cons x xs ihx =>
          simp only [PyVal.beqList, Bool.and_eq_true]
          exact ⟨((ih x (by simp)) x).mpr rfl,
            ihx (fun z hz => ih z (by simp [hz]))⟩

instance : DecidableEq PyVal := fun a b =>
  decidable_of_iff _ (PyVal.beq_eq_true_iff a b)

/-- Iterating a string in Python yields its one-character substrings. -/
def strElems (s : String) : List PyVal :=
  s.data.map fun c => PyVal.str (String.singleton c)

/-- `iter(v)`: `some` of the element list when `v` is iterable, `Option.none`
when `iter` raises `TypeError`.  Iterating bytes yields integers. -/
def iterElems : PyVal → Option (List PyVal)
  | PyVal.str s => some (strElems s)
  | PyVal.bytes bs => some (bs.map fun b => PyVal.atom (Int.ofNat b))
  | PyVal.list xs => some xs
  | PyVal.tuple xs => some xs
  | _ => Option.none

/-- Whether `iter(v)` succeeds. -/
def isIterable (v : PyVal) : Bool := (iterElems v).isSome

/-- `wrap` from the source: `None` gives `[]`; a `str` gives `[arg]`; any
other iterable gives `list(arg)`; a non-iterable gives `[arg]`. -/
def wrap : PyVal → List PyVal
  | PyVal.none => []
  | PyVal.str s => [PyVal.str s]
  | arg =>
    match iterElems arg with
    | some xs => xs
    | Option.none => [arg]

example : wrap (PyVal.list [PyVal.atom 1]) = [PyVal.atom 1] := rfl
example : wrap (PyVal.bytes [97]) = [PyVal.atom 97] := rfl
example : wrap (PyVal.str "ab") = [PyVal.str "ab"] := rfl

/-- `isseparable` from the source: `x` is iterable and not an instance of
`str` or `bytes`. -/
def isseparable (x : PyVal) : Bool :=
  match iterElems x with
  | Option.none => false
  | some _ =>
    match x with
    | PyVal.str _ => false
    | PyVal.bytes _ => false
    | _ => true

/-- The loop of `unwrap`: while `seed` is a one-element `list` or `tuple`,
replace it by its element. -/
def unwrapLoop : PyVal → PyVal
  | PyVal.list [x] => unwrapLoop x
  | PyVal.tuple [x] => unwrapLoop x
  | v => v

/-- `unwrap` (with no `newtype`) from the source: the loop started on the
seed `[obj]`. -/
def unwrap (obj : PyVal) : PyVal := unwrapLoop (PyVal.list [obj])

/-- The accumulation loop of `unique`: append each item not already in the
collection. -/
def uniqueLoop (collection : List PyVal) : List PyVal → List PyVal
  | [] => collection
  | item :: rest =>
    if item ∈ collection then uniqueLoop collection rest
    else uniqueLoop (collection ++ [item]) rest

/-- The error raised by `unique` on a non-iterable single argument when
`separable=True`. -/
inductive PyErr : Type where
  | separableTypeError : PyErr
deriving DecidableEq

/-- `unique(*args, separable=...)` from the source: pick `args[0]` when
`separable` holds and there is exactly one argument, the argument tuple
otherwise; raise if that is not iterable; then deduplicate preserving
first-occurrence order. -/
def unique (args : List PyVal) (separable : Bool) : Except PyErr (List PyVal) :=
  let items : PyVal :=
    if separable ∧ args.length = 1 then args.headD PyVal.none
    else PyVal.tuple args
  match iterElems items with
  | Option.none => Except.error PyErr.separableTypeError
  | some xs => Except.ok (uniqueLoop [] xs)

/-- Specification-side description of order-preserving deduplication: keep
each value at its first occurrence, dropping all later duplicates. -/
def firstOccurrences : List PyVal → List PyVal
  | [] => []
  | x :: xs => x :: firstOccurrences (xs.filter fun y => y ≠ x)
termination_by l => l.length
decreasing_by
  simp only [List.length_cons]
  exact Nat.lt_succ_of_le (List.length_filter_le _ _)

example : unique [PyVal.str "a", PyVal.str "b", PyVal.str "a", PyVal.str "c"] false
    = Except.ok [PyVal.str "a", PyVal.str "b", PyVal.str "c"] := by rfl
example : unique [PyVal.atom 1] true = Except.error PyErr.separableTypeError := by rfl
example : unwrap (PyVal.list [PyVal.list [PyVal.atom 3]]) = PyVal.atom 3 := rfl
example : unique [PyVal.str "aabac"] true
    = Except.ok [PyVal.str "a", PyVal.str "b", PyVal.str "c"] := by rfl

/-! ## The merge pipeline

`merge` and its `MergeError` are not in the source tree (only the tests call
`nonstring.merge`), so the pipeline below is modelled from the specification:
normalizer (reusing `wrap`), anchor extractor, segment partitioner, and
segment combiner. -/

/-- Modelled from the spec: the common-value test of the anchor extractor.
`sharedElem these those x` holds when `x` appears in both normalized
inputs. -/
def sharedElem (these those : PyVal) (x : PyVal) : Bool :=
  decide (x ∈ wrap these) && decide (x ∈ wrap those)

/-- Modelled from the spec: the segment partitioner.  Splits a sequence at
every element satisfying `p` (every anchor occurrence), producing the runs
of non-anchor elements before, between, and after the anchors.  A sequence
with `k` anchors yields `k + 1` segments. -/
def segments (p : PyVal → Bool) : List PyVal → List (List PyVal)
  | [] => [[]]
  | x :: xs =>
    let rest := segments p xs
    if p x then [] :: rest
    else (x :: rest.headD []) :: rest.tail

/-- Modelled from the spec: the segment combiner.
`combineSegs (S0 … Sk) (T0 … Tk) (a1 … ak) = S0 ⧺ T0 ⧺ a1 ⧺ S1 ⧺ T1 ⧺ a2 ⧺ … ⧺ ak ⧺ Sk ⧺ Tk`. -/
def combineSegs : List (List PyVal) → List (List PyVal) → List PyVal → List PyVal
  | S :: Ss, T :: Ts, a :: anchors => S ++ T ++ a :: combineSegs Ss Ts anchors
  | S :: _, T :: _, [] => S ++ T
  | _, _, _ => []

/-- Modelled from the spec: the `merge` entry point, absent from the source
tree.  Normalizes both arguments with `wrap`, extracts the anchors as the
common-value subsequence of each side, fails with a merge-conflict error
carrying the two original inputs when those subsequences differ, and
otherwise combines the partitioned segments around the anchors. -/
def merge (these those : PyVal) : Except (PyVal × PyVal) (List PyVal) :=
  let A := wrap these
  let B := wrap those
  let common := sharedElem these those
  let anchorsFromA := A.filter common
  let anchorsFromB := B.filter common
  if anchorsFromA = anchorsFromB then
    Except.ok (combineSegs (segments common A) (segments common B) anchorsFromA)
  else
    Except.error (these, those)

/-- Shorthand for a Python list of strings. -/
def strList (ss : List String) : PyVal := PyVal.list (ss.map PyVal.str)

example : merge (strList ["y", "z"]) (strList ["z", "w"])
    = Except.ok (["y", "z", "w"].map PyVal.str) := by rfl
example : merge (PyVal.str "abc") (PyVal.str "abd")
    = Except.ok [PyVal.str "abc", PyVal.str "abd"] := by rfl
example : merge (strList ["x", "y", "z", "w", "r"]) (strList ["a", "x", "b", "c", "y", "w"])
    = Except.ok (["a", "x", "b", "c", "y", "z", "w", "r"].map PyVal.str) := by rfl
example : merge
    (strList ["a", "q", "x", "q", "p", "c", "r"])
    (strList ["a", "x", "b", "t", "y", "c", "z"])
    = Except.ok (["a", "q", "x", "q", "p", "b", "t", "y", "c", "r", "z"].map PyVal.str) := by
  rfl
example : merge (strList ["x", "y", "z"]) (strList ["x", "y", "z"])
    = Except.ok (["x", "y", "z"].map PyVal.str) := by rfl
example : merge (strList ["x", "y", "z"]) (strList ["x", "y"])
    = Except.ok (["x", "y", "z"].map PyVal.str) := by rfl
example : merge (strList ["x", "y", "z"]) (strList ["y", "z"])
    = Except.ok (["x", "y", "z"].map PyVal.str) := by rfl
example : merge (strList ["x", "y", "z"]) (strList ["x", "z"])
    = Except.ok (["x", "y", "z"].map PyVal.str) := by rfl
example : merge (strList ["y", "z"]) (strList ["x", "y", "z"])
    = Except.ok (["x", "y", "z"].map PyVal.str) := by rfl
example : merge (strList ["x", "y", "z"]) (strList ["y", "z", "w"])
    = Except.ok (["x", "y", "z", "w"].map PyVal.str) := by rfl
example : merge
    (strList ["a", "x", "b", "t", "y", "c", "z"])
    (strList ["a", "q", "x", "q", "p", "c", "r"])
    = Except.ok (["a", "q", "x", "b", "t", "y", "q", "p", "c", "z", "r"].map PyVal.str) := by
  rfl
example : merge (strList ["abc"]) (PyVal.str "abd")
    = Except.ok [PyVal.str "abc", PyVal.str "abd"] := by rfl
example : merge (PyVal.str "abc") (strList ["abd"])
    = Except.ok [PyVal.str "abc", PyVal.str "abd"] := by rfl
example : merge (strList ["abc"]) (strList ["abd"])
    = Except.ok [PyVal.str "abc", PyVal.str "abd"] := by rfl
example : merge (strList ["a", "b", "c"]) (strList ["a", "b", "d"])
    = Except.ok (["a", "b", "c", "d"].map PyVal.str) := by rfl
example : merge (strList ["a", "b", "c"]) (strList ["a", "c", "b"])
    = Except.error (strList ["a", "b", "c"], strList ["a", "c", "b"]) := by rfl
example : merge (strList ["a", "c", "b"]) (strList ["a", "b", "c"])
    = Except.error (strList ["a", "c", "b"], strList ["a", "b", "c"]) := by rfl

/-! ## Wrapper equality

`Wrapper.__init__` stores `tuple(wrap(this))`; `Wrapper.__eq__` compares
`sorted(self) == sorted(other)`.  Python `sorted` relies on `<`, which
raises `TypeError` on unorderable pairs, so the comparison is modelled as
an `Option`. -/

/-- Strict lexicographic order on byte sequences. -/
def bytesLt : List Nat → List Nat → Bool
  | _, [] => false
  | [], _ :: _ => true
  | a :: as, b :: bs => if a = b then bytesLt as bs else decide (a < b)

mutual

/-- Python `<` on the modelled values: `some` of the comparison for
same-kind orderable values, `Option.none` (a `TypeError`) otherwise. -/
def pyLt : PyVal → PyVal → Option Bool
  | PyVal.atom a, PyVal.atom b => some (decide (a < b))
  | PyVal.str a, PyVal.str b => some (decide (a < b))
  | PyVal.bytes a, PyVal.bytes b => some (bytesLt a b)
  | PyVal.list a, PyVal.list b => pyLtList a b
  | PyVal.tuple a, PyVal.tuple b => pyLtList a b
  | _, _ => Option.none

/-- Python list/tuple `<`: skip equal prefixes, compare at the first
difference, shorter list first on exhaustion. -/
def pyLtList : List PyVal → List PyVal → Option Bool
  | _, [] => some false
  | [], _ :: _ => some true
  | a :: as, b :: bs => if a = b then pyLtList as bs else pyLt a b

end

/-- Insert a value into an already sorted list, in front of the first
strictly greater element; fails when a needed comparison fails. -/
def pyInsert (x : PyVal) : List PyVal → Option (List PyVal)
  | [] => some [x]
  | y :: ys =>
    match pyLt x y with
    | Option.none => Option.none
    | some true => some (x :: y :: ys)
    | some false => (pyInsert x ys).map fun l => y :: l

/-- Python `sorted` on the modelled values, as an insertion sort whose
comparisons may fail. -/
def pySorted : List PyVal → Option (List PyVal)
  | [] => some []
  | x :: xs => (pySorted xs).bind (pyInsert x)

/-- `Wrapper.__eq__` from the source: compare the sorted wrapped contents of
the two instances; a failing sort propagates as a raised `TypeError`. -/
def wrapperEq (a b : PyVal) : Option Bool :=
  match pySorted (wrap a), pySorted (wrap b) with
  | some sa, some sb => some (decide (sa = sb))
  | _, _ => Option.none

example : wrapperEq (PyVal.list [PyVal.atom 1, PyVal.atom 2])
    (PyVal.list [PyVal.atom 2, PyVal.atom 1]) = some true := by rfl
example : wrapperEq (PyVal.list [PyVal.atom 1, PyVal.str "a"])
    (PyVal.list [PyVal.atom 1, PyVal.str "a"]) = Option.none := by rfl

/-- A one-element `list` or `tuple`, the shapes `unwrap` strips. -/
def isSingletonSeq : PyVal → Bool
  | PyVal.list [_] => true
  | PyVal.tuple [_] => true
  | _ => false

/-- Plain insertion into a sorted list of integers, in front of the first
strictly greater element (the ordering `pySorted` realizes on integers). -/
def intInsert (x : Int) : List Int → List Int
  | [] => [x]
  | y :: ys => if x < y then x :: y :: ys else y :: intInsert x ys

/-- Insertion sort on integers. -/
def intSort : List Int → List Int
  | [] => []
  | x :: xs => intInsert x (intSort xs)

/-! ## Theorems -/

/-- C4: `wrap` never fails (it is a total function by construction);
`wrap(None)` is the empty list; a non-iterable value other than `None`
wraps to the one-element list holding it; an iterable non-string value
wraps to the shallow copy of its elements in their existing order. -/
theorem wrap_total_spec :
    wrap PyVal.none = [] ∧
    (∀ v : PyVal, v ≠ PyVal.none → isIterable v = false → wrap v = [v]) ∧
    (∀ (v : PyVal) (es : List PyVal), (∀ s, v ≠ PyVal.str s) →
      iterElems v = some es → wrap v = es) := by
  refine ⟨rfl, ?_, ?_⟩
  · intro v hne hiter
    cases v <;> simp_all [wrap, isIterable, iterElems]
  · intro v es hstr hiter
    cases v with
    | none => simp [iterElems] at hiter
    | str s => exact absurd rfl (hstr s)
    | _ => simp_all [wrap, iterElems]

/-- Witness for C4 at concrete inputs: a scalar and a one-element tuple. -/
theorem wrap_total_spec_witness :
    wrap (PyVal.atom 5) = [PyVal.atom 5] ∧
    wrap (PyVal.tuple [PyVal.atom 1]) = [PyVal.atom 1] :=
  ⟨wrap_total_spec.2.1 (PyVal.atom 5) (by decide) (by rfl),
   wrap_total_spec.2.2 (PyVal.tuple [PyVal.atom 1]) [PyVal.atom 1]
     (fun s h => by cases h) rfl⟩

/-- C5, counterexample: `wrap` splits a `bytes` value into its integer
elements instead of returning the one-element list holding it, although
`isseparable` counts `bytes` as string-like. -/
theorem wrap_bytes_not_atomic_cex :
    wrap (PyVal.bytes [97]) = [PyVal.atom 97] ∧
    wrap (PyVal.bytes [97]) ≠ [PyVal.bytes [97]] ∧
    isseparable (PyVal.bytes [97]) = false := by
  refine ⟨rfl, ?_, rfl⟩
  decide

/-- C5, amended: only `str` values are treated atomically by `wrap`: a
string wraps to the one-element list holding the whole string and is never
split into characters, while a `bytes` value — string-like for
`isseparable` — is iterated into the list of its integer elements. -/
theorem wrap_string_atomic :
    (∀ s, wrap (PyVal.str s) = [PyVal.str s]) ∧
    (∀ s, isseparable (PyVal.str s) = false) ∧
    (∀ bs, isseparable (PyVal.bytes bs) = false) ∧
    (∀ bs, wrap (PyVal.bytes bs) = bs.map fun b => PyVal.atom (Int.ofNat b)) := by
  refine ⟨fun s => rfl, fun s => rfl, fun bs => rfl, fun bs => rfl⟩

theorem unwrap_eq_loop (v : PyVal) : unwrap v = unwrapLoop v := rfl

theorem unwrapLoop_of_not_singleton (v : PyVal) (h : isSingletonSeq v = false) :
    unwrapLoop v = v := by
  cases v with
  | list xs =>
    match xs with
    | [] => rfl
    | [x] => simp [isSingletonSeq] at h
    | x :: y :: rest => rfl
  | tuple xs =>
    match xs with
    | [] => rfl
    | [x] => simp [isSingletonSeq] at h
    | x :: y :: rest => rfl
  | _ => rfl

theorem unwrapLoop_not_singleton (v : PyVal) :
    isSingletonSeq (unwrapLoop v) = false := by
  induction v using unwrapLoop.induct with
  | case1 x ih => simpa [unwrapLoop] using ih
  | case2 x ih => simpa [unwrapLoop] using ih
  | case3 v h1 h2 =>
    rw [unwrapLoop_of_not_singleton]
    · cases v with
      | list xs =>
        match xs with
        | [] => rfl
        | [x] => exact absurd rfl (h1 x)
        | x :: y :: rest => rfl
      | tuple xs =>
        match xs with
        | [] => rfl
        | [x] => exact absurd rfl (h2 x)
        | x :: y :: rest => rfl
      | _ => rfl
    · cases v with
      | list xs =>
        match xs with
        | [] => rfl
        | [x] => exact absurd rfl (h1 x)
        | x :: y :: rest => rfl
      | tuple xs =>
        match xs with
        | [] => rfl
        | [x] => exact absurd rfl (h2 x)
        | x :: y :: rest => rfl
      | _ => rfl

/-- C8: `unwrap` (with no target type) strips one-element enclosing lists
and tuples, including nested ones, stops exactly on anything that is not a
one-element list or tuple (non-sequences, empty sequences, multi-element
sequences are returned unchanged), its result is never again a one-element
list or tuple, and `unwrap([[3]]) = 3`. -/
theorem unwrap_spec :
    (∀ x, unwrap (PyVal.list [x]) = unwrap x) ∧
    (∀ x, unwrap (PyVal.tuple [x]) = unwrap x) ∧
    (∀ v, isSingletonSeq v = false → unwrap v = v) ∧
    (∀ v, isSingletonSeq (unwrap v) = false) ∧
    unwrap (PyVal.list [PyVal.list [PyVal.atom 3]]) = PyVal.atom 3 := by
  refine ⟨fun x => rfl, fun x => rfl, ?_, ?_, rfl⟩
  · intro v h
    rw [unwrap_eq_loop, unwrapLoop_of_not_singleton v h]
  · intro v
    rw [unwrap_eq_loop]
    exact unwrapLoop_not_singleton v

theorem firstOccurrences_sublist :
    ∀ l : List PyVal, List.Sublist (firstOccurrences l) l := by
  intro l
  induction l using firstOccurrences.induct with
  | case1 => simp [firstOccurrences]
  | case2 x xs ih =>
    rw [firstOccurrences]
    exact List.Sublist.cons₂ x (ih.trans (List.filter_sublist xs))

theorem firstOccurrences_mem : ∀ (l : List PyVal) (a : PyVal),
    a ∈ firstOccurrences l ↔ a ∈ l := by
  intro l
  induction l using firstOccurrences.induct with
  | case1 => simp [firstOccurrences]
  | case2 x xs ih =>
    intro a
    rw [firstOccurrences, List.mem_cons, ih a, List.mem_filter]
    by_cases ha : a = x <;> simp [ha]

theorem firstOccurrences_nodup : ∀ l : List PyVal, (firstOccurrences l).Nodup := by
  intro l
  induction l using firstOccurrences.induct with
  | case1 => simp [firstOccurrences]
  | case2 x xs ih =>
    rw [firstOccurrences]
    refine List.nodup_cons.mpr ⟨?_, ih⟩
    intro hmem
    have := (firstOccurrences_mem _ x).mp hmem
    simp [List.mem_filter] at this

theorem uniqueLoop_eq : ∀ l acc : List PyVal,
    uniqueLoop acc l = acc ++ firstOccurrences (l.filter fun y => decide (y ∉ acc)) := by
  intro l
  induction l with
  | nil => intro acc; simp [uniqueLoop, firstOccurrences]
  | cons x xs ih =>
    intro acc
    by_cases hx : x ∈ acc
    · rw [uniqueLoop, if_pos hx, ih acc, List.filter_cons_of_neg (by simp [hx])]
    · rw [uniqueLoop, if_neg hx, ih (acc ++ [x]), List.filter_cons_of_pos (by simp [hx]),
        firstOccurrences]
      rw [List.append_assoc]
      refine congrArg (fun t => acc ++ t) ?_
      show [x] ++ _ = x :: _
      rw [List.singleton_append]
      refine congrArg (fun t => x :: t) (congrArg firstOccurrences ?_)
      rw [List.filter_filter]
      apply List.filter_congr
      intro y hy
      simp only [List.mem_append, List.mem_singleton, decide_not]
      cases hacc : decide (y ∈ acc) <;> cases hxeq : decide (y = x) <;>
        simp_all

theorem uniqueLoop_nil (l : List PyVal) : uniqueLoop [] l = firstOccurrences l := by
  rw [uniqueLoop_eq]
  simp

theorem unique_not_extracting (args : List PyVal) (separable : Bool)
    (h : ¬(separable = true ∧ args.length = 1)) :
    unique args separable = Except.ok (uniqueLoop [] args) := by
  simp only [unique, if_neg h]
  rfl

theorem unique_extracting_ok (a : PyVal) (xs : List PyVal)
    (h : iterElems a = some xs) :
    unique [a] true = Except.ok (uniqueLoop [] xs) := by
  simp only [unique]
  rw [if_pos (show True ∧ [a].length = 1 from ⟨trivial, rfl⟩)]
  simp only [List.headD_cons]
  rw [h]

theorem unique_extracting_err (a : PyVal) (h : iterElems a = Option.none) :
    unique [a] true = Except.error PyErr.separableTypeError := by
  simp only [unique]
  rw [if_pos (show True ∧ [a].length = 1 from ⟨trivial, rfl⟩)]
  simp only [List.headD_cons]
  rw [h]

/-- C6: with `separable` false, `unique` never fails and returns the
distinct positional arguments, each kept at its first occurrence, in
first-occurrence order (the result is a duplicate-free sublist of the
arguments with the same membership); in particular
`unique("a","b","a","c") = ["a","b","c"]`. -/
theorem unique_variadic_spec :
    (∀ args, unique args false = Except.ok (firstOccurrences args)) ∧
    (∀ args, (firstOccurrences args).Nodup) ∧
    (∀ args x, x ∈ firstOccurrences args ↔ x ∈ args) ∧
    (∀ args, List.Sublist (firstOccurrences args) args) ∧
    unique (["a", "b", "a", "c"].map PyVal.str) false
      = Except.ok (["a", "b", "c"].map PyVal.str) := by
  have hok : ∀ args, unique args false = Except.ok (firstOccurrences args) := by
    intro args
    rw [unique_not_extracting args false (by simp), uniqueLoop_nil]
  exact ⟨hok, firstOccurrences_nodup, fun args x => firstOccurrences_mem args x,
    firstOccurrences_sublist, by rfl⟩

/-- C7: `unique` raises the not-separable error exactly when `separable`
is true, exactly one positional argument was given, and that argument is
not iterable; in every other case it returns normally. -/
theorem unique_error_iff :
    ∀ (args : List PyVal) (separable : Bool),
      (∃ e, unique args separable = Except.error e) ↔
      (separable = true ∧ ∃ a, args = [a] ∧ isIterable a = false) := by
  intro args separable
  by_cases h : separable = true ∧ args.length = 1
  · obtain ⟨hsep, hlen⟩ := h
    subst hsep
    obtain ⟨a, rfl⟩ : ∃ a, args = [a] := by
      match args, hlen with
      | [a], _ => exact ⟨a, rfl⟩
    cases hit : iterElems a with
    | none =>
      rw [unique_extracting_err a hit]
      constructor
      · intro _
        exact ⟨rfl, a, rfl, by simp [isIterable, hit]⟩
      · intro _
        exact ⟨PyErr.separableTypeError, rfl⟩
    | some xs =>
      rw [unique_extracting_ok a xs hit]
      constructor
      · rintro ⟨e, he⟩
        exact Except.noConfusion he
      · rintro ⟨-, b, hb, hfalse⟩
        have hab : a = b := by injection hb
        subst hab
        simp [isIterable, hit] at hfalse
  · rw [unique_not_extracting args separable h]
    constructor
    · rintro ⟨e, he⟩
      exact Except.noConfusion he
    · rintro ⟨hsep, a, ha, -⟩
      exact absurd ⟨hsep, by rw [ha]; rfl⟩ h

/-- C10: `unique` with `separable=True` accepts a single string argument —
its separability check only requires iterability, unlike `isseparable`,
which rejects strings — and returns the distinct one-character substrings
in first-occurrence order; `unique("aabac", separable=True) =
["a","b","c"]`. -/
theorem unique_string_separable :
    (∀ s, isseparable (PyVal.str s) = false) ∧
    (∀ s, unique [PyVal.str s] true = Except.ok (firstOccurrences (strElems s))) ∧
    unique [PyVal.str "aabac"] true = Except.ok (["a", "b", "c"].map PyVal.str) := by
  refine ⟨fun s => rfl, ?_, by rfl⟩
  intro s
  rw [unique_extracting_ok (PyVal.str s) (strElems s) rfl, uniqueLoop_nil]

theorem segments_all_pos (p : PyVal → Bool) :
    ∀ l : List PyVal, (∀ x ∈ l, p x = true) →
      segments p l = List.replicate (l.length + 1) [] := by
  intro l
  induction l with
  | nil => intro _; rfl
  | cons x xs ih =>
    intro h
    rw [segments]
    simp only [h x (by simp)]
    rw [if_pos trivial, ih fun y hy => h y (by simp [hy])]
    rfl

theorem segments_all_neg (p : PyVal → Bool) :
    ∀ l : List PyVal, (∀ x ∈ l, p x = false) → segments p l = [l] := by
  intro l
  induction l with
  | nil => intro _; rfl
  | cons x xs ih =>
    intro h
    rw [segments]
    simp only [h x (by simp)]
    rw [if_neg (by simp), ih fun y hy => h y (by simp [hy])]
    rfl

theorem combineSegs_diag : ∀ anchors : List PyVal,
    combineSegs (List.replicate (anchors.length + 1) [])
      (List.replicate (anchors.length + 1) []) anchors = anchors := by
  intro anchors
  induction anchors with
  | nil => rfl
  | cons a rest ih =>
    show combineSegs ([] :: List.replicate (rest.length + 1) [])
      ([] :: List.replicate (rest.length + 1) []) (a :: rest) = a :: rest
    rw [combineSegs, ih]
    rfl

/-- C2: merging any value with itself succeeds and returns exactly the
normalization (`wrap`) of that value: every element is an anchor and all
segments are empty. -/
theorem merge_idempotent : ∀ v : PyVal, merge v v = Except.ok (wrap v) := by
  intro v
  have hshared : ∀ x ∈ wrap v, sharedElem v v x = true := by
    intro x hx
    simp [sharedElem, hx]
  have hfilter : (wrap v).filter (sharedElem v v) = wrap v :=
    List.filter_eq_self.mpr hshared
  rw [merge]
  simp only [hfilter]
  rw [if_pos trivial, segments_all_pos (sharedElem v v) (wrap v) hshared, combineSegs_diag]

/-- C3: when the two normalized inputs share no elements there are no
anchors, and the merge is the normalization of the left input followed by
the normalization of the right input. -/
theorem merge_disjoint : ∀ v w : PyVal,
    (∀ x, x ∈ wrap v → x ∉ wrap w) →
    merge v w = Except.ok (wrap v ++ wrap w) := by
  intro v w hdisj
  have hsharedA : ∀ x ∈ wrap v, sharedElem v w x = false := by
    intro x hx
    simp [sharedElem, hdisj x hx]
  have hsharedB : ∀ x ∈ wrap w, sharedElem v w x = false := by
    intro x hx
    have : x ∉ wrap v := fun hxv => hdisj x hxv hx
    simp [sharedElem, this]
  have hfA : (wrap v).filter (sharedElem v w) = [] := by
    rw [List.filter_eq_nil_iff]
    intro x hx
    simp [hsharedA x hx]
  have hfB : (wrap w).filter (sharedElem v w) = [] := by
    rw [List.filter_eq_nil_iff]
    intro x hx
    simp [hsharedB x hx]
  rw [merge]
  simp only [hfA, hfB]
  rw [if_pos trivial, segments_all_neg (sharedElem v w) (wrap v) hsharedA,
    segments_all_neg (sharedElem v w) (wrap w) hsharedB]
  rfl

/-- Witness for C3 at concrete disjoint inputs. -/
theorem merge_disjoint_witness :
    merge (strList ["a", "b"]) (strList ["x", "y"])
      = Except.ok (["a", "b", "x", "y"].map PyVal.str) := by
  rw [merge_disjoint (strList ["a", "b"]) (strList ["x", "y"]) (by decide)]
  rfl

theorem pyInsert_atom (x : Int) : ∀ l : List Int,
    pyInsert (PyVal.atom x) (l.map PyVal.atom)
      = some ((intInsert x l).map PyVal.atom) := by
  intro l
  induction l with
  | nil => rfl
  | cons y ys ih =>
    show pyInsert (PyVal.atom x) (PyVal.atom y :: ys.map PyVal.atom) = _
    rw [pyInsert]
    show (match some (decide (x < y)) with
      | Option.none => Option.none
      | some true => some (PyVal.atom x :: PyVal.atom y :: ys.map PyVal.atom)
      | some false =>
        (pyInsert (PyVal.atom x) (ys.map PyVal.atom)).map
          fun l => PyVal.atom y :: l) = _
    by_cases hxy : x < y
    · rw [decide_eq_true hxy, intInsert, if_pos hxy]
      rfl
    · rw [decide_eq_false hxy, ih, intInsert, if_neg hxy]
      rfl

theorem pySorted_atom : ∀ l : List Int,
    pySorted (l.map PyVal.atom) = some ((intSort l).map PyVal.atom) := by
  intro l
  induction l with
  | nil => rfl
  | cons x xs ih =>
    show pySorted (PyVal.atom x :: xs.map PyVal.atom) = _
    rw [pySorted, ih]
    show pyInsert (PyVal.atom x) ((intSort xs).map PyVal.atom) = _
    rw [pyInsert_atom, intSort]

theorem intInsert_perm (x : Int) : ∀ l : List Int, (intInsert x l).Perm (x :: l) := by
  intro l
  induction l with
  | nil => exact List.Perm.refl _
  | cons y ys ih =>
    rw [intInsert]
    by_cases hxy : x < y
    · rw [if_pos hxy]
    · rw [if_neg hxy]
      exact (ih.cons y).trans (List.Perm.swap x y ys)

theorem intSort_perm : ∀ l : List Int, (intSort l).Perm l := by
  intro l
  induction l with
  | nil => exact List.Perm.refl _
  | cons x xs ih =>
    rw [intSort]
    exact (intInsert_perm x (intSort xs)).trans (ih.cons x)

theorem intInsert_sorted (x : Int) : ∀ l : List Int,
    l.Sorted (· ≤ ·) → (intInsert x l).Sorted (· ≤ ·) := by
  intro l
  induction l with
  | nil => intro _; simp [intInsert]
  | cons y ys ih =>
    intro hs
    rw [List.sorted_cons] at hs
    rw [intInsert]
    by_cases hxy : x < y
    · rw [if_pos hxy, List.sorted_cons]
      refine ⟨?_, List.sorted_cons.mpr hs⟩
      intro b hb
      rcases List.mem_cons.mp hb with rfl | hb
      · exact le_of_lt hxy
      · exact le_trans (le_of_lt hxy) (hs.1 b hb)
    · rw [if_neg hxy, List.sorted_cons]
      refine ⟨?_, ih hs.2⟩
      intro b hb
      have hb' := (intInsert_perm x ys).mem_iff.mp hb
      rcases List.mem_cons.mp hb' with rfl | hb'
      · exact le_of_not_lt hxy
      · exact hs.1 b hb'

theorem intSort_sorted : ∀ l : List Int, (intSort l).Sorted (· ≤ ·) := by
  intro l
  induction l with
  | nil => simp [intSort]
  | cons x xs ih => exact intInsert_sorted x (intSort xs) ih

theorem intSort_eq_iff_perm (xs ys : List Int) :
    intSort xs = intSort ys ↔ xs.Perm ys := by
  constructor
  · intro h
    exact (intSort_perm xs).symm.trans (h ▸ intSort_perm ys)
  · intro h
    exact List.eq_of_perm_of_sorted
      ((intSort_perm xs).trans (h.trans (intSort_perm ys).symm))
      (intSort_sorted xs) (intSort_sorted ys)

/-- C9: `Wrapper.__eq__` returns true exactly when the sorted sequences of
the two wrapped contents are (both defined and) equal; on wrappers of
integer lists this holds exactly when the wrapped elements are permutations
of each other, so equality disregards element order, and in particular
`Wrapper([1, 2]) == Wrapper([2, 1])`. -/
theorem wrapper_eq_spec :
    (∀ a b : PyVal, wrapperEq a b = some true ↔
      ∃ s, pySorted (wrap a) = some s ∧ pySorted (wrap b) = some s) ∧
    (∀ xs ys : List Int,
      wrapperEq (PyVal.list (xs.map PyVal.atom)) (PyVal.list (ys.map PyVal.atom))
        = some true ↔ xs.Perm ys) ∧
    wrapperEq (PyVal.list [PyVal.atom 1, PyVal.atom 2])
      (PyVal.list [PyVal.atom 2, PyVal.atom 1]) = some true := by
  have hgen : ∀ a b : PyVal, wrapperEq a b = some true ↔
      ∃ s, pySorted (wrap a) = some s ∧ pySorted (wrap b) = some s := by
    intro a b
    rw [wrapperEq]
    cases ha : pySorted (wrap a) with
    | none =>
      constructor
      · intro h
        cases pySorted (wrap b) <;> cases h
      · rintro ⟨s, hsa, -⟩
        cases hsa
    | some sa =>
      cases hb : pySorted (wrap b) with
      | none =>
        constructor
        · intro h
          cases h
        · rintro ⟨s, -, hsb⟩
          cases hsb
      | some sb =>
        constructor
        · intro h
          have : sa = sb := by
            have := Option.some.inj h
            exact of_decide_eq_true this
          exact ⟨sa, rfl, by rw [this]⟩
        · rintro ⟨s, hsa', hsb'⟩
          have h1 : sa = s := Option.some.inj hsa'
          have h2 : sb = s := Option.some.inj hsb'
          rw [h1, h2]
          simp
  refine ⟨hgen, ?_, by rfl⟩
  intro xs ys
  rw [wrapperEq,
    show wrap (PyVal.list (xs.map PyVal.atom)) = xs.map PyVal.atom from rfl,
    show wrap (PyVal.list (ys.map PyVal.atom)) = ys.map PyVal.atom from rfl,
    pySorted_atom, pySorted_atom]
  show some (decide ((intSort xs).map PyVal.atom = (intSort ys).map PyVal.atom))
    = some true ↔ _
  rw [← intSort_eq_iff_perm]
  constructor
  · intro h
    have hmap := of_decide_eq_true (Option.some.inj h)
    exact List.map_injective_iff.mpr (fun a b hab => PyVal.atom.inj hab) hmap
  · intro h
    rw [h]
    simp

theorem exists_transposed_pair : ∀ (P Q : List PyVal), P.Nodup → Q.Nodup →
    (∀ x, x ∈ P ↔ x ∈ Q) → P ≠ Q →
    ∃ x y, List.Sublist [x, y] P ∧ List.Sublist [y, x] Q := by
  intro P
  induction P with
  | nil =>
    intro Q _ _ hmem hne
    have hQnil : Q = [] :=
      List.eq_nil_iff_forall_not_mem.mpr fun x hx =>
        (List.not_mem_nil x) ((hmem x).mpr hx)
    exact absurd hQnil.symm hne
  | cons x Pt ih =>
    intro Q hP hQ hmem hne
    have hxQ : x ∈ Q := (hmem x).mp (by simp)
    cases Q with
    | nil => exact absurd hxQ (List.not_mem_nil x)
    | cons y Qt =>
      have hP' := List.nodup_cons.mp hP
      have hQ' := List.nodup_cons.mp hQ
      by_cases hxy : x = y
      · subst hxy
        have hmem' : ∀ z, z ∈ Pt ↔ z ∈ Qt := by
          intro z
          constructor
          · intro hz
            have hzx : z ≠ x := fun h => hP'.1 (h ▸ hz)
            rcases List.mem_cons.mp ((hmem z).mp (List.mem_cons_of_mem x hz)) with h | h
            · exact absurd h hzx
            · exact h
          · intro hz
            have hzx : z ≠ x := fun h => hQ'.1 (h ▸ hz)
            rcases List.mem_cons.mp ((hmem z).mpr (List.mem_cons_of_mem x hz)) with h | h
            · exact absurd h hzx
            · exact h
        have hne' : Pt ≠ Qt := fun h => hne (by rw [h])
        obtain ⟨a, b, h1, h2⟩ := ih Qt hP'.2 hQ'.2 hmem' hne'
        exact ⟨a, b, h1.cons x, h2.cons x⟩
      · have hyP : y ∈ x :: Pt := (hmem y).mpr (by simp)
        have hyPt : y ∈ Pt := by
          rcases List.mem_cons.mp hyP with h | h
          · exact absurd h.symm hxy
          · exact h
        have hxQt : x ∈ Qt := by
          rcases List.mem_cons.mp hxQ with h | h
          · exact absurd h hxy
          · exact h
        exact ⟨x, y, List.Sublist.cons₂ x (List.singleton_sublist.mpr hyPt),
          List.Sublist.cons₂ y (List.singleton_sublist.mpr hxQt)⟩

theorem sublist_pair_indexOf_lt : ∀ (L : List PyVal) (x y : PyVal), L.Nodup →
    List.Sublist [x, y] L → L.indexOf x < L.indexOf y := by
  intro L
  induction L with
  | nil =>
    intro x y _ h
    cases h
  | cons z Lt ih =>
    intro x y hnd h
    have hz := List.nodup_cons.mp hnd
    cases h with
    | cons _ h' =>
      have hx : x ∈ Lt := h'.subset (by simp)
      have hy : y ∈ Lt := h'.subset (by simp)
      have hxz : z ≠ x := fun he => hz.1 (he ▸ hx)
      have hyz : z ≠ y := fun he => hz.1 (he ▸ hy)
      rw [List.indexOf_cons_ne Lt hxz, List.indexOf_cons_ne Lt hyz]
      exact Nat.succ_lt_succ (ih x y hz.2 h')
    | cons₂ _ h' =>
      have hy : y ∈ Lt := List.singleton_sublist.mp h'
      have hyz : z ≠ y := fun he => hz.1 (he ▸ hy)
      rw [List.indexOf_cons_self, List.indexOf_cons_ne Lt hyz]
      exact Nat.succ_pos _

theorem merge_error_iff (v w : PyVal) :
    (∃ e, merge v w = Except.error e) ↔
      (wrap v).filter (sharedElem v w) ≠ (wrap w).filter (sharedElem v w) := by
  rw [merge]
  by_cases h : (wrap v).filter (sharedElem v w) = (wrap w).filter (sharedElem v w)
  · rw [if_pos h]
    constructor
    · rintro ⟨e, he⟩
      exact Except.noConfusion he
    · intro hne
      exact absurd h hne
  · rw [if_neg h]
    exact ⟨fun _ => h, fun _ => ⟨(v, w), rfl⟩⟩

theorem filter_count_nodup (A : List PyVal) (c : PyVal → Bool)
    (hcount : ∀ x, c x = true → A.count x ≤ 1) : (A.filter c).Nodup := by
  rw [List.nodup_iff_count_le_one]
  intro a
  by_cases hca : c a = true
  · exact le_trans ((List.filter_sublist A).count_le a) (hcount a hca)
  · have hnm : a ∉ A.filter c := fun hmem => hca (List.of_mem_filter hmem)
    rw [List.count_eq_zero.mpr hnm]
    omega

theorem sharedElem_true_iff (v w x : PyVal) :
    sharedElem v w x = true ↔ x ∈ wrap v ∧ x ∈ wrap w := by
  simp [sharedElem]

theorem mem_filter_shared (v w x : PyVal) :
    x ∈ (wrap v).filter (sharedElem v w) ↔ sharedElem v w x = true := by
  constructor
  · exact fun h => List.of_mem_filter h
  · intro h
    exact List.mem_filter.mpr ⟨((sharedElem_true_iff v w x).mp h).1, h⟩

theorem mem_filter_shared_right (v w x : PyVal) :
    x ∈ (wrap w).filter (sharedElem v w) ↔ sharedElem v w x = true := by
  constructor
  · exact fun h => List.of_mem_filter h
  · intro h
    exact List.mem_filter.mpr ⟨((sharedElem_true_iff v w x).mp h).2, h⟩

/-- C1: `merge` fails on the two test conflict cases, its error carries the
two original inputs, and -- on the domain where no shared value repeats
within either input -- it raises the merge-conflict error exactly when the
inputs contain two shared elements whose relative order disagrees between
them. -/
theorem merge_conflict_spec :
    merge (strList ["a", "b", "c"]) (strList ["a", "c", "b"])
      = Except.error (strList ["a", "b", "c"], strList ["a", "c", "b"]) ∧
    merge (strList ["a", "c", "b"]) (strList ["a", "b", "c"])
      = Except.error (strList ["a", "c", "b"], strList ["a", "b", "c"]) ∧
    (∀ v w e, merge v w = Except.error e → e = (v, w)) ∧
    (∀ v w : PyVal,
      (∀ x, sharedElem v w x = true → (wrap v).count x ≤ 1 ∧ (wrap w).count x ≤ 1) →
      ((∃ e, merge v w = Except.error e) ↔
        ∃ x y, sharedElem v w x = true ∧ sharedElem v w y = true ∧
          List.Sublist [x, y] (wrap v) ∧ List.Sublist [y, x] (wrap w))) := by
  refine ⟨by rfl, by rfl, ?_, ?_⟩
  · intro v w e he
    rw [merge] at he
    by_cases hc : (wrap v).filter (sharedElem v w) = (wrap w).filter (sharedElem v w)
    · rw [if_pos hc] at he
      exact Except.noConfusion he
    · rw [if_neg hc] at he
      exact (Except.error.inj he).symm
  · intro v w hcount
    have hndA : ((wrap v).filter (sharedElem v w)).Nodup :=
      filter_count_nodup (wrap v) (sharedElem v w) fun x hx => (hcount x hx).1
    have hndB : ((wrap w).filter (sharedElem v w)).Nodup :=
      filter_count_nodup (wrap w) (sharedElem v w) fun x hx => (hcount x hx).2
    rw [merge_error_iff]
    constructor
    · intro hne
      obtain ⟨x, y, h1, h2⟩ := exists_transposed_pair
        ((wrap v).filter (sharedElem v w)) ((wrap w).filter (sharedElem v w))
        hndA hndB
        (fun x => (mem_filter_shared v w x).trans (mem_filter_shared_right v w x).symm)
        hne
      have hcx : sharedElem v w x = true :=
        (mem_filter_shared v w x).mp (h1.subset (by simp))
      have hcy : sharedElem v w y = true :=
        (mem_filter_shared v w y).mp (h1.subset (by simp))
      exact ⟨x, y, hcx, hcy, h1.trans (List.filter_sublist _),
        h2.trans (List.filter_sublist _)⟩
    · rintro ⟨x, y, hcx, hcy, hxyA, hyxB⟩ heq
      have hpair : List.filter (sharedElem v w) [x, y] = [x, y] := by
        rw [List.filter_cons_of_pos hcx, List.filter_cons_of_pos hcy]
        rfl
      have hpair' : List.filter (sharedElem v w) [y, x] = [y, x] := by
        rw [List.filter_cons_of_pos hcy, List.filter_cons_of_pos hcx]
        rfl
      have h1 : List.Sublist [x, y] ((wrap v).filter (sharedElem v w)) := by
        have := hxyA.filter (sharedElem v w)
        rwa [hpair] at this
      have h2 : List.Sublist [y, x] ((wrap v).filter (sharedElem v w)) := by
        have := hyxB.filter (sharedElem v w)
        rw [hpair'] at this
        rwa [← heq] at this
      have i1 := sublist_pair_indexOf_lt _ x y hndA h1
      have i2 := sublist_pair_indexOf_lt _ y x hndA h2
      omega

/-- Witness for C1: the characterization applied to the concrete conflict
case from the tests, with its no-repeated-shared-value hypothesis
discharged there. -/
theorem merge_conflict_spec_witness :
    ∃ e, merge (strList ["a", "b", "c"]) (strList ["a", "c", "b"]) = Except.error e := by
  refine (merge_conflict_spec.2.2.2 (strList ["a", "b", "c"]) (strList ["a", "c", "b"])
    ?_).mpr
    ⟨PyVal.str "b", PyVal.str "c", by decide, by decide,
      (List.Sublist.refl [PyVal.str "b", PyVal.str "c"]).cons (PyVal.str "a"),
      ((List.singleton_sublist.mpr (by decide)).cons₂ (PyVal.str "c")).cons (PyVal.str "a")⟩
  intro x hx
  have hxA : x ∈ [PyVal.str "a", PyVal.str "b", PyVal.str "c"] :=
    ((sharedElem_true_iff _ _ x).mp hx).1
  rcases List.mem_cons.mp hxA with rfl | hxA
  · exact ⟨by decide, by decide⟩
  rcases List.mem_cons.mp hxA with rfl | hxA
  · exact ⟨by decide, by decide⟩
  rcases List.mem_cons.mp hxA with rfl | hxA
  · exact ⟨by decide, by decide⟩
  · exact absurd hxA (List.not_mem_nil x)

/-- Witness for C8 at concrete inputs: a scalar and a two-element list are
both fixed by `unwrap`. -/
theorem unwrap_spec_witness :
    unwrap (PyVal.atom 7) = PyVal.atom 7 ∧
    unwrap (PyVal.list [PyVal.atom 1, PyVal.atom 2])
      = PyVal.list [PyVal.atom 1, PyVal.atom 2] :=
  ⟨unwrap_spec.2.2.1 (PyVal.atom 7) (by decide),
   unwrap_spec.2.2.1 (PyVal.list [PyVal.atom 1, PyVal.atom 2]) (by decide)⟩
